import Mathlib

/-!
# Verification of the clockify-reconciliator reconciliation engine

A shallow embedding of the reconciliation engine of the
`clockify-reconciliator` repository, together with theorems settling the
specification claims about it.

Numeric model: JavaScript numbers that hold hours or scores are modelled as
rationals (`ℚ`).  The idiom `+(x).toFixed(6)` from the source is modelled by
`toFixed6`, rounding to six decimal places with ties going up (ECMAScript
`toFixed` picks the larger candidate on a tie).  JavaScript `Date` values are
modelled as integer milliseconds since the epoch (`ℤ`); the `Date`
constructor truncates a fractional millisecond timestamp toward zero, which
`ratTrunc` models.  Timezone offsets are taken as fixed (no DST transition
inside a window), so date-fns day arithmetic becomes exact arithmetic on
milliseconds.
-/

/-- `+(x).toFixed(6)` from the enricher: round to 6 decimal places,
ties rounded toward `+∞` (ECMAScript `toFixed` picks the larger integer on a
tie). -/
def toFixed6 (q : ℚ) : ℚ :=
  (⌊q * 1000000 + 1 / 2⌋ : ℚ) / 1000000

/-- Truncation toward zero on rationals, as ECMAScript `ToIntegerOrInfinity`
performs inside the `Date` constructor. -/
def ratTrunc (q : ℚ) : ℤ :=
  if 0 ≤ q then ⌊q⌋ else ⌈q⌉

/-- `parseHMM` from `clockify-enricher.js`: parse a duration shaped `"H:MM"`
into hours.  The numeric content is `h + m / 60`; the string plumbing is
dropped and the parsed components are taken as given. -/
def parseHMM (h m : ℕ) : ℚ :=
  (h : ℚ) + (m : ℚ) / 60

/-- A sub-task as returned by the decomposition call (Section 13 of
`clockify-enricher.js`): a description together with its hours.  The optional
ticket id and confidence tag ride along unchanged through every operation the
claims mention, so they are folded into `description`-like payload fields. -/
structure SubTask where
  description : String
  hours : ℚ
  deriving Repr, DecidableEq

/-- Replace the hours of the last element of a list, leaving everything else
unchanged.  Models `parsed[parsed.length - 1].hours = ...` assignments. -/
def updateLastHours (f : ℚ → ℚ) : List SubTask → List SubTask
  | [] => []
  | [t] => [{ t with hours := f t.hours }]
  | t :: u :: rest => t :: updateLastHours f (u :: rest)

/-- Sum of the hours of a list of sub-tasks, as
`reduce((s, t) => s + (t.hours || 0), 0)`. -/
def subTaskSum (l : List SubTask) : ℚ :=
  (l.map SubTask.hours).sum

/-- Section 13 sum validation of `clockify-enricher.js` (lines 705–713):
if the hours returned by the decomposition call deviate from `totalHours` by
more than `0.001`, add the 6-decimal rounding of the delta to the last
sub-task (the assignment itself rounds to 6 decimals again); otherwise leave
the list untouched. -/
def reconcileSubTaskHours (totalHours : ℚ) (parsed : List SubTask) : List SubTask :=
  let sum := subTaskSum parsed
  if 1 / 1000 < |sum - totalHours| then
    let diff := toFixed6 (totalHours - sum)
    updateLastHours (fun h => toFixed6 (h + diff)) parsed
  else parsed

/-- The inner `while` loop of the Section 13 cursor allocation
(lines 726–739 of `clockify-enricher.js`): starting from `remaining` hours
still needed by the current group member, repeatedly take from the head of
the shared sub-task queue.  A head whose hours fit is consumed whole and the
cursor advances; otherwise a partial copy sized to `remaining` is assigned
and the head is shrunk in place.  Returns the assigned sub-tasks and the
queue as left for the next member. -/
def allocateMember (remaining : ℚ) : List SubTask → List SubTask × List SubTask
  | [] => ([], [])
  | t :: rest =>
    if remaining ≤ 0 then ([], t :: rest)
    else if t.hours ≤ remaining then
      let p := allocateMember (toFixed6 (remaining - t.hours)) rest
      (t :: p.1, p.2)
    else
      ([{ t with hours := remaining }],
        { t with hours := toFixed6 (t.hours - remaining) } :: rest)

/-- The per-member residual fold of Section 13 (lines 741–748): if the
assigned sub-tasks do not sum to the member's hours, fold the 6-decimal
rounding of the difference into the last assigned sub-task. -/
def adjustLast (entryHours : ℚ) (assigned : List SubTask) : List SubTask :=
  let sum := subTaskSum assigned
  let diff := toFixed6 (entryHours - sum)
  if |diff| > 0 ∧ assigned ≠ [] then
    updateLastHours (fun h => toFixed6 (h + diff)) assigned
  else assigned

/-- The full Section 13 cursor allocation: walk the group members (given by
their parsed durations) in original order, each drawing from the shared
queue via `allocateMember`, then apply the residual fold.  Returns the
per-member assignments together with the final state of the queue. -/
def allocateGroup : List ℚ → List SubTask → List (List SubTask) × List SubTask
  | [], q => ([], q)
  | need :: needs, q =>
    let p := allocateMember need q
    let r := allocateGroup needs p.2
    (adjustLast need p.1 :: r.1, r.2)

/-- Section 13b of `clockify-enricher.js`: the durations of the work items
built for one entry.  An entry with a non-empty sub-task list produces one
work item per sub-task carrying that sub-task's hours; any other entry
produces exactly one work item carrying the entry's parsed duration. -/
def entryWorkItemDurations (entryHours : ℚ) (subTasks : List SubTask) : List ℚ :=
  if subTasks ≠ [] then subTasks.map SubTask.hours else [entryHours]

/-- The state of a group after the Section 13 decomposition step, per member:
`[]` marks a member left without sub-tasks (generator failure, malformed
response, or an exhausted queue), which Section 13b then treats as a
non-split entry.  On a parseable array response the hours are first
reconciled against `totalHours` and then allocated to the members by the
shared cursor. -/
def decomposeGroup (response : Option (List SubTask)) (totalHours : ℚ)
    (needs : List ℚ) : List (List SubTask) :=
  match response with
  | none => needs.map (fun _ => [])
  | some parsed =>
    let reconciled := reconcileSubTaskHours totalHours parsed
    (allocateGroup needs reconciled).1

/-- `MILLISECONDS_IN_HOUR` of date-fns. -/
def MILLISECONDS_IN_HOUR : ℚ := 3600000

/-- date-fns `addHours` (v3 semantics): add `amount * 3600000` milliseconds;
the resulting fractional timestamp is truncated toward zero by the `Date`
constructor (`TimeClip` / `ToIntegerOrInfinity`). -/
def addHours (t : ℤ) (amount : ℚ) : ℤ :=
  ratTrunc ((t : ℚ) + amount * MILLISECONDS_IN_HOUR)

/-- One segment returned by `splitTimeWindow`; `stop` models the `end` field
(`end` is a Lean keyword). -/
structure Segment where
  start : ℤ
  stop : ℤ
  deriving Repr, DecidableEq

/-- The segment-building loop of `splitTimeWindow` (date-utils.js
lines 99–111): walk the durations, each segment starting where the previous
one ended. -/
def buildSegments : ℤ → List ℚ → List Segment
  | _, [] => []
  | cur, d :: rest =>
    let e := addHours cur d
    ⟨cur, e⟩ :: buildSegments e rest

/-- `splitTimeWindow` from date-utils.js.  A `none` endpoint models an
argument that is not a `Date` object; thrown errors are modelled as
`Except.error` with the source's message. -/
def splitTimeWindow (startDate endDate : Option ℤ) (durations : List ℚ) :
    Except String (List Segment) :=
  match startDate, endDate with
  | some s, some e =>
    if durations.isEmpty then
      Except.error "durations must be a non-empty array"
    else
      let totalDuration := durations.sum
      let windowDuration := ((e : ℚ) - (s : ℚ)) / (1000 * 60 * 60)
      if 1 / 1000 < |windowDuration - totalDuration| then
        Except.error "Total durations must equal window duration"
      else
        Except.ok (buildSegments s durations)
  | _, _ => Except.error "startDate and endDate must be Date objects"

/-- date-fns `differenceInDays` in a fixed-offset timezone: the number of
whole 24-hour periods between the instants, truncated toward zero. -/
def differenceInDays (a b : ℤ) : ℤ :=
  ratTrunc (((a - b : ℤ) : ℚ) / 86400000)

/-- `isWithinDayWindow` from date-utils.js: the absolute full-day difference
is at most `windowDays`. -/
def isWithinDayWindow (date targetDate : ℤ) (windowDays : ℕ) : Bool :=
  |differenceInDays date targetDate| ≤ (windowDays : ℤ)

/-- One record of `github-summary.json` as the matcher sees it.  `id` models
JavaScript object identity (the record's position in the loaded array);
`mergedAt` and `date` are the pre-parsed timestamps, `none` when the field
is missing or unparseable (both make the ±1-day test fail in the source:
a missing field throws inside the per-item `try` and is skipped, an invalid
date yields `NaN` which fails the comparison). -/
structure GithubItem where
  id : ℕ
  type : String
  prNumber : Option ℤ
  ticketIds : List String
  mergedAt : Option ℤ
  date : Option ℤ
  deriving Repr, DecidableEq

/-- `item.type === "pr" ? item.merged_at : item.date` (enricher line 432). -/
def githubItemDate (g : GithubItem) : Option ℤ :=
  if g.type = "pr" then g.mergedAt else g.date

/-- Exact-match test of Section 11: the item's ticket ids intersect the
entry's extracted ticket ids. -/
def isExactMatch (tids : List String) (g : GithubItem) : Bool :=
  g.ticketIds.any (fun t => tids.contains t)

/-- Near-match test of Section 11: the entry has a parsed date, the item's
own date parses, and they are within ±1 day. -/
def isNearMatch (clockifyDate : Option ℤ) (g : GithubItem) : Bool :=
  match clockifyDate, githubItemDate g with
  | some cd, some gd => isWithinDayWindow cd gd 1
  | _, _ => false

/-- The `githubMatches` list built by Section 11 (lines 416–460) for one
entry: with extracted ticket ids, exact matches are collected in evidence
order, the near subset is extracted from them, and the output is the near
matches followed by the exact matches not already listed; without ticket
ids, a date-only ±1-day match over all evidence is used. -/
def githubMatchesFor (tids : List String) (clockifyDate : Option ℤ)
    (githubData : List GithubItem) : List GithubItem :=
  if tids ≠ [] then
    let exact := githubData.filter (isExactMatch tids)
    let near := exact.filter (isNearMatch clockifyDate)
    near ++ exact.filter (fun x => ¬ near.contains x)
  else
    match clockifyDate with
    | some _ => githubData.filter (isNearMatch clockifyDate)
    | none => []

/-- `MAX_BATCH_SIZE` from `clockify-enricher.js` line 64. -/
def MAX_BATCH_SIZE : ℕ := 10

/-- The fields of a work item that resume detection and batching read
(Sections 15–17).  `ticketId` is `none` when the source holds `null` or an
empty string (both falsy in the `wi.ticketId || ...` key computation);
`clockifyDate` is the parsed entry timestamp. -/
structure WorkItem where
  workItemKey : String
  ticketId : Option String
  clockifyDate : Option ℤ
  deriving Repr, DecidableEq

/-- `formatDateFns(d, "yyyy-MM-dd")` in a fixed-offset timezone: a rendering
of the local calendar day holding `d`.  Two timestamps render equally
exactly when they fall on the same calendar day, which is the only property
of the format the batching key uses. -/
def formatYMD (t : ℤ) : String :=
  toString (Int.fdiv t 86400000)

/-- The Section 16 batching key:
`wi.ticketId || (wi.clockifyDate ? formatDateFns(...) : "UNASSIGNED")`. -/
def batchKey (wi : WorkItem) : String :=
  match wi.ticketId with
  | some t => t
  | none =>
    match wi.clockifyDate with
    | some d => formatYMD d
    | none => "UNASSIGNED"

/-- One persisted enrichment-progress record as read back at startup
(Section 15).  Only the two identifying fields matter for resume detection;
`workItemKey = some ""` models a record whose key is the empty string,
which `typeof` accepts as a string but `!item.workItemKey` treats as
absent. -/
structure LedgerRecord where
  workItemKey : Option String
  rowIndex : Option ℤ
  deriving Repr, DecidableEq

/-- The `processedKeys` set of Section 15: every string `workItemKey`
appearing in the loaded progress records, plus a synthesized key
`"{rowIndex}:0"` for every legacy record that carries a numeric `rowIndex`
but no (falsy) `workItemKey`. -/
def processedKeys (progressItems : List LedgerRecord) : List String :=
  progressItems.filterMap (fun r => r.workItemKey) ++
    progressItems.filterMap (fun r =>
      match r.rowIndex with
      | some n =>
        if r.workItemKey = none ∨ r.workItemKey = some "" then
          some (toString n ++ ":0")
        else none
      | none => none)

/-- Insert a work item at the end of its key's bucket, keeping first-seen
key order — the observable behaviour of the insertion-ordered JavaScript
`Map` in Section 16. -/
def insertByKey (wi : WorkItem) : List (String × List WorkItem) →
    List (String × List WorkItem)
  | [] => [(batchKey wi, [wi])]
  | (k, ws) :: rest =>
    if k = batchKey wi then (k, ws ++ [wi]) :: rest
    else (k, ws) :: insertByKey wi rest

/-- The `byKey` map of Section 16: walk the work items in order, skip any
whose key is already processed, and group the rest by batching key. -/
def byKeyMap (processed : List String) (workItems : List WorkItem) :
    List (String × List WorkItem) :=
  workItems.foldl
    (fun acc wi =>
      if processed.contains wi.workItemKey then acc else insertByKey wi acc)
    []

/-- The chunking loop of Section 16 (lines 893–894): consecutive slices of
`MAX_BATCH_SIZE` items. -/
def chunksOf (l : List WorkItem) : List (List WorkItem) :=
  if l = [] then []
  else l.take MAX_BATCH_SIZE :: chunksOf (l.drop MAX_BATCH_SIZE)
termination_by l.length
decreasing_by
  simp only [List.length_drop, MAX_BATCH_SIZE]
  rename_i h
  have : 0 < l.length := List.length_pos.mpr h
  omega

/-- The `batches` array of Section 16: each key's bucket is emitted whole
when it fits in `MAX_BATCH_SIZE`, else as consecutive same-order chunks of
that size. -/
def buildBatches (groupsList : List (String × List WorkItem)) :
    List (List WorkItem) :=
  groupsList.foldl
    (fun batches p =>
      if p.2.length ≤ MAX_BATCH_SIZE then batches ++ [p.2]
      else batches ++ chunksOf p.2)
    []

/-- Sections 15–16 end to end: the batches sent for enrichment in this run,
given the loaded progress records and the built work items. -/
def batchesForRun (progressItems : List LedgerRecord)
    (workItems : List WorkItem) : List (List WorkItem) :=
  buildBatches (byKeyMap (processedKeys progressItems) workItems)

/-- A Jira summary record as the matcher sees it. -/
structure JiraItem where
  ticketId : String
  deriving Repr, DecidableEq

/-- The match result built by Section 11 for one entry, restricted to the
fields the later phases read. -/
structure MatchResult where
  rowIndex : ℤ
  ticketIds : List String
  githubMatches : List GithubItem
  jiraMatches : List JiraItem
  matchPhase : String
  confidence : String
  deriving Repr, DecidableEq

/-- A GitHub reference as decoded from `res.github_match` by the Phase 2
loop (lines 530–551): the numeric, `"PR#n"`, `"pr_n"` and bare-string
`parseInt` renderings all yield a PR number, and `"COMMIT_GROUP@date"`
yields a commit-group date; an unparseable reference (a `NaN` number) is
modelled as the absence of a reference. -/
inductive GithubRef
  | prNum (n : ℤ)
  | commitGroup (date : ℤ)
  deriving Repr, DecidableEq

/-- Resolve a decoded GitHub reference against the evidence set, as
lines 543–554 do.  A PR number of `0` is falsy (`if (prNum && ...)`) and
resolves to nothing. -/
def resolveGithubRef (githubData : List GithubItem) : GithubRef → Option GithubItem
  | GithubRef.prNum n =>
    if n = 0 then none else githubData.find? (fun x => x.prNumber = some n)
  | GithubRef.commitGroup d =>
    githubData.find? (fun x => x.type = "commit_group" ∧ x.date = some d)

/-- One element of the semantic-matching response array. -/
structure SemanticResult where
  rowIndex : ℤ
  githubMatch : Option GithubRef
  jiraMatch : Option String
  confidence : Option String
  deriving Repr, DecidableEq

/-- `findIndex` followed by an in-place update of that single element:
the mutation pattern of the Phase 2 loop. -/
def updateFirst (p : α → Bool) (f : α → α) : List α → List α
  | [] => []
  | x :: rest => if p x then f x :: rest else x :: updateFirst p f rest

/-- Apply one semantic result, as the body of the Phase 2 loop
(lines 523–561): locate the match result with this `rowIndex`, stamp it
`semantic`, override its confidence when one is supplied, and append any
evidence the references resolve to; unresolved references are dropped
silently. -/
def applySemanticResult (githubData : List GithubItem) (jiraData : List JiraItem)
    (ms : List MatchResult) (res : SemanticResult) : List MatchResult :=
  updateFirst (fun m => m.rowIndex = res.rowIndex)
    (fun m =>
      { m with
        matchPhase := "semantic"
        confidence := res.confidence.getD m.confidence
        githubMatches := m.githubMatches ++
          match res.githubMatch.bind (resolveGithubRef githubData) with
          | some g => [g]
          | none => []
        jiraMatches := m.jiraMatches ++
          match res.jiraMatch.bind
              (fun t => jiraData.find? (fun x => x.ticketId = t)) with
          | some j => [j]
          | none => [] })
    ms

/-- Phase 2 of Section 11 as a whole.  `response = none` models the catch
path: the provider call threw, or the response body did not parse to an
array (`Array.isArray` fails), in which case the loop body never runs and
the exact-only results stand. -/
def semanticMatchingPhase (response : Option (List SemanticResult))
    (githubData : List GithubItem) (jiraData : List JiraItem)
    (ms : List MatchResult) : List MatchResult :=
  match response with
  | none => ms
  | some results => results.foldl (applySemanticResult githubData jiraData) ms

/-- JavaScript `a || b` on an optional string: an absent or empty string is
falsy. -/
def orFalsy (a : Option String) (b : String) : String :=
  match a with
  | some s => if s = "" then b else s
  | none => b

/-- The extra fields of a work item that the enrichment loop reads when it
builds a progress record (Section 17, lines 965–982). -/
structure EnrichTarget where
  workItemKey : String
  rowIndex : ℤ
  subIndex : ℤ
  draftDescription : String
  deriving Repr, DecidableEq

/-- One element of a batch-enrichment response array. -/
structure EnrichResponseItem where
  workItemKey : String
  enrichedDescription : Option String
  description : Option String
  confidence : Option String
  notes : Option String
  deriving Repr, DecidableEq

/-- The progress record appended to the ledger for one enriched work item
(lines 970–981). -/
structure EnrichRecord where
  workItemKey : String
  rowIndex : ℤ
  subIndex : ℤ
  enrichedDescription : String
  aiConfidence : String
  aiNotes : String
  deriving Repr, DecidableEq

/-- Build the record appended for one response element and its matched
batch item, with the source's falsy-coalescing defaults. -/
def recordFor (target : EnrichTarget) (r : EnrichResponseItem) : EnrichRecord :=
  { workItemKey := target.workItemKey
    rowIndex := target.rowIndex
    subIndex := target.subIndex
    enrichedDescription :=
      orFalsy r.enrichedDescription
        (orFalsy r.description (orFalsy (some target.draftDescription) ""))
    aiConfidence := orFalsy r.confidence "low"
    aiNotes := orFalsy r.notes "" }

/-- The records appended while processing one successful batch: every
response element that names a `workItemKey` present in the batch appends
one record; elements naming no batch item are skipped (`continue`). -/
def batchRecords (batch : List EnrichTarget) (results : List EnrichResponseItem) :
    List EnrichRecord :=
  results.filterMap (fun r =>
    (batch.find? (fun bi => bi.workItemKey = r.workItemKey)).map
      (fun target => recordFor target r))

/-- The Section 17 enrichment loop.  `respond` models one provider call
followed by fence stripping, JSON parsing and the `Array.isArray` check;
`none` is a thrown error or a non-array response.  The result is the list
of ledger records appended by this run, in append order, together with
`true` when every batch was processed and `false` when the run aborted
(`process.exit(1)`) — records appended by earlier batches are preserved
either way. -/
def runEnrichmentLoop (respond : List EnrichTarget → Option (List EnrichResponseItem)) :
    List (List EnrichTarget) → List EnrichRecord × Bool
  | [] => ([], true)
  | batch :: rest =>
    match respond batch with
    | none => ([], false)
    | some results =>
      let recs := batchRecords batch results
      let r := runEnrichmentLoop respond rest
      (recs ++ r.1, r.2)

/-! ## Arithmetic lemmas about `toFixed6` -/

theorem toFixed6_sub_abs_le (q : ℚ) : |toFixed6 q - q| ≤ 1 / 2000000 := by
  unfold toFixed6
  have h1 : (⌊q * 1000000 + 1 / 2⌋ : ℚ) ≤ q * 1000000 + 1 / 2 := Int.floor_le _
  have h2 : q * 1000000 + 1 / 2 - 1 < (⌊q * 1000000 + 1 / 2⌋ : ℚ) :=
    Int.sub_one_lt_floor _
  rw [abs_le]
  constructor <;> nlinarith

theorem abs_le_of_toFixed6_eq_zero {q : ℚ} (h : toFixed6 q = 0) :
    |q| ≤ 1 / 2000000 := by
  have := toFixed6_sub_abs_le q
  rw [h] at this
  simpa using this

/-- A rational that is an integer multiple of `10⁻⁶`; every value actually
stored by the enricher after a `toFixed(6)` rounding has this shape. -/
def isMicro (q : ℚ) : Prop := ∃ n : ℤ, q = (n : ℚ) / 1000000

theorem isMicro_add {a b : ℚ} (ha : isMicro a) (hb : isMicro b) :
    isMicro (a + b) := by
  obtain ⟨n, rfl⟩ := ha
  obtain ⟨m, rfl⟩ := hb
  exact ⟨n + m, by push_cast; ring⟩

theorem isMicro_neg {a : ℚ} (ha : isMicro a) : isMicro (-a) := by
  obtain ⟨n, rfl⟩ := ha
  exact ⟨-n, by push_cast; ring⟩

theorem isMicro_sub {a b : ℚ} (ha : isMicro a) (hb : isMicro b) :
    isMicro (a - b) := by
  rw [sub_eq_add_neg]
  exact isMicro_add ha (isMicro_neg hb)

theorem isMicro_zero : isMicro 0 := ⟨0, by norm_num⟩

theorem toFixed6_of_isMicro {q : ℚ} (h : isMicro q) : toFixed6 q = q := by
  obtain ⟨n, rfl⟩ := h
  unfold toFixed6
  have h1 : (n : ℚ) / 1000000 * 1000000 + 1 / 2 = (n : ℚ) + 1 / 2 := by ring
  rw [h1]
  have h2 : ⌊(n : ℚ) + 1 / 2⌋ = n := by
    rw [add_comm, Int.floor_add_int]
    norm_num
  rw [h2]

/-! ## Lemmas about `updateLastHours`, `subTaskSum` and `adjustLast` -/

theorem subTaskSum_append (l1 l2 : List SubTask) :
    subTaskSum (l1 ++ l2) = subTaskSum l1 + subTaskSum l2 := by
  simp [subTaskSum]

theorem subTaskSum_cons (t : SubTask) (l : List SubTask) :
    subTaskSum (t :: l) = t.hours + subTaskSum l := by
  simp [subTaskSum]

theorem updateLastHours_concat (f : ℚ → ℚ) (init : List SubTask) (t : SubTask) :
    updateLastHours f (init ++ [t]) = init ++ [{ t with hours := f t.hours }] := by
  induction init with
  | nil => rfl
  | cons x xs ih =>
    cases xs with
    | nil => rfl
    | cons y ys =>
      simp only [List.cons_append, updateLastHours, List.append_eq] at ih ⊢
      rw [ih]

theorem adjustLast_nil (need : ℚ) : adjustLast need [] = [] := by
  simp [adjustLast]

theorem adjustLast_sum_abs_le (need : ℚ) (a : List SubTask) (ha : a ≠ []) :
    |subTaskSum (adjustLast need a) - need| ≤ 1 / 1000000 := by
  rcases (List.eq_nil_or_concat a).resolve_left ha with ⟨init, t, rfl⟩
  rw [List.concat_eq_append] at ha ⊢
  simp only [adjustLast]
  by_cases hd : |toFixed6 (need - subTaskSum (init ++ [t]))| > 0
  · rw [if_pos ⟨hd, ha⟩, updateLastHours_concat]
    have hsplit : subTaskSum (init ++ [t]) = subTaskSum init + t.hours := by
      simp [subTaskSum]
    have hsum : subTaskSum
        (init ++ [{ t with
          hours := toFixed6 (t.hours + toFixed6 (need - subTaskSum (init ++ [t]))) }])
        = subTaskSum init +
          toFixed6 (t.hours + toFixed6 (need - subTaskSum (init ++ [t]))) := by
      simp [subTaskSum]
    rw [hsum, hsplit]
    have h1 := toFixed6_sub_abs_le (need - (subTaskSum init + t.hours))
    have h2 := toFixed6_sub_abs_le
      (t.hours + toFixed6 (need - (subTaskSum init + t.hours)))
    rw [abs_le] at h1 h2 ⊢
    constructor <;> linarith [h1.1, h1.2, h2.1, h2.2]
  · rw [if_neg (fun hc => hd hc.1)]
    push_neg at hd
    have h0 : toFixed6 (need - subTaskSum (init ++ [t])) = 0 :=
      abs_eq_zero.mp (le_antisymm hd (abs_nonneg _))
    have := abs_le_of_toFixed6_eq_zero h0
    rw [abs_sub_comm] at this
    linarith [this]

theorem updateLastHours_ne_nil (f : ℚ → ℚ) (l : List SubTask) (h : l ≠ []) :
    updateLastHours f l ≠ [] := by
  rcases (List.eq_nil_or_concat l).resolve_left h with ⟨init, t, rfl⟩
  rw [List.concat_eq_append, updateLastHours_concat]
  simp

theorem adjustLast_ne_nil (need : ℚ) (a : List SubTask) (ha : a ≠ []) :
    adjustLast need a ≠ [] := by
  simp only [adjustLast]
  by_cases hc : |toFixed6 (need - subTaskSum a)| > 0 ∧ a ≠ []
  · rw [if_pos hc]
    exact updateLastHours_ne_nil _ _ ha
  · rw [if_neg hc]
    exact ha

/-- Each member's final sub-task list is the residual fold of whatever the
cursor loop assigned to it. -/
theorem allocateGroup_mem_zip {needs : List ℚ} {q : List SubTask}
    {p : ℚ × List SubTask} (hp : p ∈ needs.zip (allocateGroup needs q).1) :
    ∃ a, p.2 = adjustLast p.1 a := by
  induction needs generalizing q with
  | nil => simp [allocateGroup] at hp
  | cons need needs ih =>
    simp only [allocateGroup, List.zip_cons_cons, List.mem_cons] at hp
    rcases hp with rfl | hp
    · exact ⟨_, rfl⟩
    · exact ih hp

/-- C1: Hours preservation.  For every entry of a group, whatever the
decomposition response and the queue contents, the durations of the work
items built for that entry (one per sub-task when the entry ends up with
sub-tasks, exactly one otherwise) sum to the entry's parsed duration to
within `10⁻⁶` hours. -/
theorem hours_preservation (response : Option (List SubTask)) (totalHours : ℚ)
    (needs : List ℚ) (p : ℚ × List SubTask)
    (hp : p ∈ needs.zip (decomposeGroup response totalHours needs)) :
    |(entryWorkItemDurations p.1 p.2).sum - p.1| ≤ 1 / 1000000 := by
  cases response with
  | none =>
    simp only [decomposeGroup] at hp
    have h2 := (List.of_mem_zip hp).2
    simp only [List.mem_map] at h2
    obtain ⟨x, _, hpe⟩ := h2
    rw [← hpe]
    simp [entryWorkItemDurations]
  | some parsed =>
    obtain ⟨a, ha⟩ := allocateGroup_mem_zip (by simpa [decomposeGroup] using hp)
    by_cases hnil : a = []
    · subst hnil
      rw [ha, adjustLast_nil]
      simp [entryWorkItemDurations]
    · rw [ha]
      have hne := adjustLast_ne_nil p.1 a hnil
      simp only [entryWorkItemDurations, if_pos hne]
      exact adjustLast_sum_abs_le p.1 a hnil

theorem hours_preservation_witness :
    ((1 : ℚ), ([] : List SubTask)) ∈ ([1] : List ℚ).zip (decomposeGroup none 1 [1]) ∧
    |(entryWorkItemDurations (1 : ℚ) []).sum - 1| ≤ 1 / 1000000 :=
  ⟨by decide, hours_preservation none 1 [1] ((1 : ℚ), []) (by decide)⟩

/-- C3 counterexample.  First input: proposed hours `[0.9995]` for
`totalHours = 1` have a sum different from `totalHours`, yet the validation
changes nothing (the deviation is within `0.001`), so no delta is ever
added — refuting "per §8 this holds for every S ≠ totalHours".  Second
input: proposed hours `[1/2]` for `totalHours = 1/3` (a 0:20 duration) do
get corrected, but the corrected sum is `0.333333 ≠ 1/3` — refuting "after
correction the sum equals totalHours exactly". -/
theorem decomposition_reconciliation_counterexample :
    (subTaskSum [(⟨"fix", 1999 / 2000⟩ : SubTask)] ≠ 1 ∧
      reconcileSubTaskHours 1 [⟨"fix", 1999 / 2000⟩] = [⟨"fix", 1999 / 2000⟩]) ∧
    (1 / 1000 < |subTaskSum [(⟨"fix", 1 / 2⟩ : SubTask)] - 1 / 3| ∧
      reconcileSubTaskHours (1 / 3) [⟨"fix", 1 / 2⟩] =
        [⟨"fix", 333333 / 1000000⟩] ∧
      subTaskSum (reconcileSubTaskHours (1 / 3) [⟨"fix", 1 / 2⟩]) ≠ 1 / 3) := by
  norm_num [reconcileSubTaskHours, subTaskSum, toFixed6, updateLastHours]
  rw [abs_of_pos (by norm_num : (0 : ℚ) < 1 / 2000),
    abs_of_pos (by norm_num : (0 : ℚ) < 1 / 6)]
  norm_num

/-- C3 (amended): when the proposed sub-task hours deviate from
`totalHours` by more than `0.001`, the delta — rounded to six decimals, the
assignment rounding once more — is added to the last sub-task and to no
other item, after which the sum equals `totalHours` to within `10⁻⁶` (and
exactly when the quantities are multiples of `10⁻⁶`); when the deviation is
within `0.001`, the list is returned unchanged even if the sum differs from
`totalHours`. -/
theorem decomposition_reconciliation (totalHours : ℚ) (parsed : List SubTask)
    (hne : parsed ≠ []) :
    (1 / 1000 < |subTaskSum parsed - totalHours| →
      ∃ t, parsed.getLast? = some t ∧
        reconcileSubTaskHours totalHours parsed =
          parsed.dropLast ++
            [{ t with hours :=
                toFixed6 (t.hours + toFixed6 (totalHours - subTaskSum parsed)) }] ∧
        |subTaskSum (reconcileSubTaskHours totalHours parsed) - totalHours| ≤
          1 / 1000000) ∧
    (|subTaskSum parsed - totalHours| ≤ 1 / 1000 →
      reconcileSubTaskHours totalHours parsed = parsed) := by
  rcases (List.eq_nil_or_concat parsed).resolve_left hne with ⟨init, t, rfl⟩
  rw [List.concat_eq_append]
  constructor
  · intro hdev
    refine ⟨t, List.getLast?_concat init, ?_, ?_⟩
    · simp only [reconcileSubTaskHours, if_pos hdev, updateLastHours_concat,
        List.dropLast_concat]
    · simp only [reconcileSubTaskHours, if_pos hdev, updateLastHours_concat]
      have hsplit : subTaskSum (init ++ [t]) = subTaskSum init + t.hours := by
        simp [subTaskSum]
      have hsum : subTaskSum
          (init ++ [{ t with
            hours := toFixed6
              (t.hours + toFixed6 (totalHours - subTaskSum (init ++ [t]))) }])
          = subTaskSum init +
            toFixed6
              (t.hours + toFixed6 (totalHours - subTaskSum (init ++ [t]))) := by
        simp [subTaskSum]
      rw [hsum, hsplit]
      have h1 := toFixed6_sub_abs_le (totalHours - (subTaskSum init + t.hours))
      have h2 := toFixed6_sub_abs_le
        (t.hours + toFixed6 (totalHours - (subTaskSum init + t.hours)))
      rw [abs_le] at h1 h2 ⊢
      constructor <;> linarith [h1.1, h1.2, h2.1, h2.2]
  · intro hin
    simp only [reconcileSubTaskHours, if_neg (not_lt.mpr hin)]

theorem toFixed6_zero : toFixed6 0 = 0 :=
  toFixed6_of_isMicro isMicro_zero

theorem adjustLast_of_sum_eq {need : ℚ} {a : List SubTask}
    (h : subTaskSum a = need) : adjustLast need a = a := by
  simp only [adjustLast]
  rw [h, sub_self, toFixed6_zero]
  simp

/-- Behaviour of one member's cursor walk under exact arithmetic: hours are
conserved between the assignment and the leftover queue, the leftover hours
stay multiples of `10⁻⁶`, and the walk either meets the member's need
exactly or exhausts the queue without exceeding the need. -/
theorem allocateMember_spec : ∀ (q : List SubTask) (remaining : ℚ),
    0 ≤ remaining → isMicro remaining → (∀ t ∈ q, isMicro t.hours) →
    subTaskSum (allocateMember remaining q).1 +
        subTaskSum (allocateMember remaining q).2 = subTaskSum q ∧
    (∀ t ∈ (allocateMember remaining q).2, isMicro t.hours) ∧
    (subTaskSum (allocateMember remaining q).1 = remaining ∨
      ((allocateMember remaining q).2 = [] ∧
        subTaskSum (allocateMember remaining q).1 = subTaskSum q ∧
        subTaskSum q ≤ remaining)) := by
  intro q
  induction q with
  | nil =>
    intro remaining h0 _ _
    refine ⟨by simp [allocateMember, subTaskSum], by simp [allocateMember], ?_⟩
    right
    exact ⟨rfl, rfl, by simpa [allocateMember, subTaskSum] using h0⟩
  | cons t rest ih =>
    intro remaining h0 hmic hq
    by_cases hr0 : remaining ≤ 0
    · have hre : remaining = 0 := le_antisymm hr0 h0
      subst hre
      simp only [allocateMember, if_pos hr0]
      exact ⟨by simp [subTaskSum], hq, Or.inl (by simp [subTaskSum])⟩
    · push_neg at hr0
      by_cases hth : t.hours ≤ remaining
      · have hmic2 : isMicro (remaining - t.hours) :=
          isMicro_sub hmic (hq t (by simp))
        have heq : toFixed6 (remaining - t.hours) = remaining - t.hours :=
          toFixed6_of_isMicro hmic2
        have hq2 : ∀ x ∈ rest, isMicro x.hours := fun x hx => hq x (by simp [hx])
        obtain ⟨ih1, ih2, ih3⟩ := ih (toFixed6 (remaining - t.hours))
          (by rw [heq]; linarith) (by rw [heq]; exact hmic2) hq2
        simp only [allocateMember, if_neg (not_le.mpr hr0), if_pos hth]
        refine ⟨?_, ih2, ?_⟩
        · rw [subTaskSum_cons, subTaskSum_cons]
          linarith [ih1]
        · rcases ih3 with hL | ⟨hL1, hL2, hL3⟩
          · left
            rw [subTaskSum_cons, hL, heq]
            ring
          · right
            refine ⟨hL1, ?_, ?_⟩
            · rw [subTaskSum_cons, hL2, subTaskSum_cons]
            · rw [subTaskSum_cons]
              rw [heq] at hL3
              linarith
      · push_neg at hth
        have hmic2 : isMicro (t.hours - remaining) :=
          isMicro_sub (hq t (by simp)) hmic
        have heq : toFixed6 (t.hours - remaining) = t.hours - remaining :=
          toFixed6_of_isMicro hmic2
        simp only [allocateMember, if_neg (not_le.mpr hr0),
          if_neg (not_le.mpr hth)]
        refine ⟨?_, ?_, Or.inl ?_⟩
        · simp only [subTaskSum_cons, subTaskSum, List.map_cons, List.map_nil,
            List.sum_cons, List.sum_nil, heq]
          ring
        · intro x hx
          rcases List.mem_cons.mp hx with rfl | hx2
          · simpa [heq] using hmic2
          · exact hq x (by simp [hx2])
        · simp [subTaskSum]

/-- Exactness of the whole cursor walk: when every duration is a
nonnegative multiple of `10⁻⁶`, the queue hours are multiples of `10⁻⁶`,
and the queue total equals the members' total, every member receives
exactly its duration, the assignments together account for the members'
total, and the leftover queue carries zero hours. -/
theorem allocateGroup_exact : ∀ (needs : List ℚ) (q : List SubTask),
    (∀ x ∈ needs, 0 ≤ x ∧ isMicro x) → (∀ t ∈ q, isMicro t.hours) →
    subTaskSum q = needs.sum →
    (∀ p ∈ needs.zip (allocateGroup needs q).1, subTaskSum p.2 = p.1) ∧
    ((allocateGroup needs q).1.map subTaskSum).sum = needs.sum ∧
    subTaskSum (allocateGroup needs q).2 = 0 := by
  intro needs
  induction needs with
  | nil =>
    intro q _ _ hsum
    exact ⟨by simp, by simp [allocateGroup], by simpa [allocateGroup] using hsum⟩
  | cons need needs ih =>
    intro q hneeds hq hsum
    obtain ⟨hn0, hnmic⟩ := hneeds need (by simp)
    obtain ⟨c1, c2, c3⟩ := allocateMember_spec q need hn0 hnmic hq
    have hneeds2 : ∀ x ∈ needs, 0 ≤ x ∧ isMicro x :=
      fun x hx => hneeds x (by simp [hx])
    have hsumrest : 0 ≤ needs.sum :=
      List.sum_nonneg (fun x hx => (hneeds2 x hx).1)
    have hq' : subTaskSum q = need + needs.sum := by
      simpa [List.sum_cons] using hsum
    have key : subTaskSum (allocateMember need q).1 = need ∧
        subTaskSum (allocateMember need q).2 = needs.sum := by
      rcases c3 with hL | ⟨hL1, hL2, hL3⟩
      · exact ⟨hL, by linarith [c1]⟩
      · have hqn : subTaskSum q = need := le_antisymm hL3 (by linarith)
        refine ⟨by rw [hL2, hqn], ?_⟩
        rw [hL1]
        have : needs.sum = 0 := by linarith
        simp [subTaskSum, this]
    obtain ⟨ka, kq⟩ := key
    obtain ⟨ih1, ih2, ih3⟩ := ih (allocateMember need q).2 hneeds2 c2 kq
    refine ⟨?_, ?_, ?_⟩
    · intro p hp
      simp only [allocateGroup, List.zip_cons_cons, List.mem_cons] at hp
      rcases hp with rfl | hp2
      · show subTaskSum (adjustLast need (allocateMember need q).1) = need
        rw [adjustLast_of_sum_eq ka, ka]
      · exact ih1 p hp2
    · simp only [allocateGroup, List.map_cons, List.sum_cons]
      rw [adjustLast_of_sum_eq ka, ka, ih2]
    · simp only [allocateGroup]
      exact ih3

/-- C4 counterexample: group members of durations (1h, 1h); the generator
proposes a single sub-task of 1.9995h, which the sum validation leaves
unchanged (deviation 0.0005 ≤ 0.001), so `[1.9995h]` is a reconciled
queue.  The cursor walk assigns 1h to the first member and 0.9995h to the
second, whose residual fold rewrites it to 1h: the members' assigned totals
sum to 2h although the queue held 1.9995h, so the sub-task's hours are not
consumed exactly once. -/
theorem cursor_allocation_counterexample :
    reconcileSubTaskHours 2 [⟨"s", 3999 / 2000⟩] = [⟨"s", 3999 / 2000⟩] ∧
    (allocateGroup [1, 1] [⟨"s", 3999 / 2000⟩]).1 = [[⟨"s", 1⟩], [⟨"s", 1⟩]] ∧
    ((allocateGroup [1, 1] [⟨"s", 3999 / 2000⟩]).1.map subTaskSum).sum = 2 ∧
    subTaskSum [(⟨"s", 3999 / 2000⟩ : SubTask)] = 3999 / 2000 ∧
    (3999 / 2000 : ℚ) ≠ 2 := by
  norm_num [reconcileSubTaskHours, allocateGroup, allocateMember, adjustLast,
    updateLastHours, subTaskSum, toFixed6, abs_of_pos, abs_of_nonneg,
    abs_of_neg]

/-- C4 (amended): under exact arithmetic — every member duration a
nonnegative multiple of `10⁻⁶`, every queue hour a multiple of `10⁻⁶`, and
the queue total equal to the members' total duration — the cursor walk
assigns each member sub-tasks summing exactly to its own duration, the
assignments together consume exactly the queue's total hours, and the
leftover queue carries zero hours. -/
theorem cursor_allocation (needs : List ℚ) (q : List SubTask)
    (hneeds : ∀ x ∈ needs, 0 ≤ x ∧ isMicro x)
    (hq : ∀ t ∈ q, isMicro t.hours)
    (hsum : subTaskSum q = needs.sum) :
    (∀ p ∈ needs.zip (allocateGroup needs q).1, subTaskSum p.2 = p.1) ∧
    ((allocateGroup needs q).1.map subTaskSum).sum = subTaskSum q ∧
    subTaskSum (allocateGroup needs q).2 = 0 := by
  obtain ⟨h1, h2, h3⟩ := allocateGroup_exact needs q hneeds hq hsum
  exact ⟨h1, by rw [h2, hsum], h3⟩

theorem cursor_allocation_witness :
    subTaskSum [(⟨"a", 2⟩ : SubTask), ⟨"b", 2⟩, ⟨"c", 1⟩] =
      ([3, 2] : List ℚ).sum ∧
    ((∀ p ∈ ([3, 2] : List ℚ).zip
          (allocateGroup [3, 2] [⟨"a", 2⟩, ⟨"b", 2⟩, ⟨"c", 1⟩]).1,
        subTaskSum p.2 = p.1) ∧
      ((allocateGroup [3, 2] [⟨"a", 2⟩, ⟨"b", 2⟩, ⟨"c", 1⟩]).1.map
          subTaskSum).sum =
        subTaskSum [(⟨"a", 2⟩ : SubTask), ⟨"b", 2⟩, ⟨"c", 1⟩] ∧
      subTaskSum (allocateGroup [3, 2] [⟨"a", 2⟩, ⟨"b", 2⟩, ⟨"c", 1⟩]).2 = 0) :=
  ⟨by norm_num [subTaskSum],
    cursor_allocation [3, 2] [⟨"a", 2⟩, ⟨"b", 2⟩, ⟨"c", 1⟩]
      (by
        intro x hx
        simp only [List.mem_cons, List.not_mem_nil, or_false] at hx
        rcases hx with rfl | rfl
        · exact ⟨by norm_num, ⟨3000000, by norm_num⟩⟩
        · exact ⟨by norm_num, ⟨2000000, by norm_num⟩⟩)
      (by
        intro t ht
        simp only [List.mem_cons, List.not_mem_nil, or_false] at ht
        rcases ht with rfl | rfl | rfl
        · exact ⟨2000000, by norm_num⟩
        · exact ⟨2000000, by norm_num⟩
        · exact ⟨1000000, by norm_num⟩)
      (by norm_num [subTaskSum])⟩

/-- C8 counterexample: for the spec's example — members (3h, 2h), queue
(2h, 2h, 1h) — the second member receives sub-tasks of hours (1h, 1h): the
residue of the second sub-task followed by the whole third.  The claimed
(1h, 2h) would sum to 3h, not to the member's 2h duration. -/
theorem cursor_allocation_example_counterexample :
    (allocateGroup [3, 2] [⟨"a", 2⟩, ⟨"b", 2⟩, ⟨"c", 1⟩]).1.map
        (fun l => l.map SubTask.hours) = [[2, 1], [1, 1]] ∧
    ([1, 1] : List ℚ) ≠ [1, 2] := by
  norm_num [allocateGroup, allocateMember, adjustLast, updateLastHours,
    subTaskSum, toFixed6, abs_of_pos, abs_of_nonneg, abs_of_neg]

/-- C8 (amended): for members (3h, 2h) and queue (2h, 2h, 1h), the first
member is assigned hours (2h, 1h) summing to 3h, the second member hours
(1h, 1h) summing to 2h, the total consumed is 5h, the queue is fully
consumed, and each original sub-task's hours are used exactly once (2h of
"a", 1h + 1h of "b", 1h of "c"). -/
theorem cursor_allocation_example :
    (allocateGroup [3, 2] [⟨"a", 2⟩, ⟨"b", 2⟩, ⟨"c", 1⟩]).1 =
      [[⟨"a", 2⟩, ⟨"b", 1⟩], [⟨"b", 1⟩, ⟨"c", 1⟩]] ∧
    subTaskSum [(⟨"a", 2⟩ : SubTask), ⟨"b", 1⟩] = 3 ∧
    subTaskSum [(⟨"b", 1⟩ : SubTask), ⟨"c", 1⟩] = 2 ∧
    ((allocateGroup [3, 2] [⟨"a", 2⟩, ⟨"b", 2⟩, ⟨"c", 1⟩]).1.map
        subTaskSum).sum = 5 ∧
    (allocateGroup [3, 2] [⟨"a", 2⟩, ⟨"b", 2⟩, ⟨"c", 1⟩]).2 = [] ∧
    subTaskSum ((allocateGroup [3, 2]
        [⟨"a", 2⟩, ⟨"b", 2⟩, ⟨"c", 1⟩]).1.flatten.filter
          (fun t => t.description = "a")) = 2 ∧
    subTaskSum ((allocateGroup [3, 2]
        [⟨"a", 2⟩, ⟨"b", 2⟩, ⟨"c", 1⟩]).1.flatten.filter
          (fun t => t.description = "b")) = 2 ∧
    subTaskSum ((allocateGroup [3, 2]
        [⟨"a", 2⟩, ⟨"b", 2⟩, ⟨"c", 1⟩]).1.flatten.filter
          (fun t => t.description = "c")) = 1 := by
  norm_num [allocateGroup, allocateMember, adjustLast, updateLastHours,
    subTaskSum, toFixed6, abs_of_pos, abs_of_nonneg, abs_of_neg, List.filter]
  simp only [String.reduceEq, decide_False, decide_True]
  norm_num

/-! ## Lemmas about the deterministic time splitter -/

theorem ratTrunc_intCast (n : ℤ) : ratTrunc (n : ℚ) = n := by
  unfold ratTrunc
  split
  · exact Int.floor_intCast n
  · exact Int.ceil_intCast n

theorem buildSegments_length : ∀ (ds : List ℚ) (s : ℤ),
    (buildSegments s ds).length = ds.length
  | [], _ => rfl
  | _ :: rest, s => by
    simp only [buildSegments, List.length_cons]
    rw [buildSegments_length rest]

theorem buildSegments_chain : ∀ (ds : List ℚ) (s : ℤ),
    List.Chain' (fun a b => a.stop = b.start) (buildSegments s ds)
  | [], _ => List.chain'_nil
  | [_], s => by simp [buildSegments]
  | d :: d2 :: rest, s => by
    have ih := buildSegments_chain (d2 :: rest) (addHours s d)
    simp only [buildSegments] at ih ⊢
    exact List.chain'_cons.mpr ⟨rfl, ih⟩

theorem buildSegments_getLast_stop : ∀ (ds : List ℚ) (s : ℤ), ds ≠ [] →
    (buildSegments s ds).getLast?.map Segment.stop =
      some (ds.foldl addHours s)
  | [], _, h => absurd rfl h
  | [d], s, _ => by simp [buildSegments, List.foldl]
  | d :: d2 :: rest, s, _ => by
    have ih := buildSegments_getLast_stop (d2 :: rest) (addHours s d)
      (by simp)
    simp only [buildSegments, List.foldl] at ih ⊢
    rw [List.getLast?_cons_cons]
    exact ih

theorem foldl_addHours_exact : ∀ (ds : List ℚ) (s : ℤ),
    (∀ d ∈ ds, ∃ n : ℤ, d * 3600000 = (n : ℚ)) →
    ((ds.foldl addHours s : ℤ) : ℚ) = (s : ℚ) + ds.sum * 3600000
  | [], s, _ => by simp
  | d :: rest, s, h => by
    obtain ⟨n, hn⟩ := h d (by simp)
    have hstep : addHours s d = s + n := by
      unfold addHours
      rw [MILLISECONDS_IN_HOUR, hn]
      rw [show (s : ℚ) + (n : ℚ) = ((s + n : ℤ) : ℚ) by push_cast; ring]
      exact ratTrunc_intCast (s + n)
    have ih := foldl_addHours_exact rest (addHours s d)
      (fun x hx => h x (by simp [hx]))
    simp only [List.foldl] at ih ⊢
    rw [ih, hstep, List.sum_cons]
    push_cast
    rw [← hn]
    ring

/-- C2 counterexample: a 1-hour window (0 ms to 3600000 ms) split with the
single sub-duration 0.9995h.  The durations sum to within `10⁻³` hours of
the window length, the splitter accepts the input, yet the single returned
interval ends at 3598200 ms — not at the window end 3600000 ms: the
splitter never snaps the last end to the window end. -/
theorem splitter_correctness_counterexample :
    ([(1999 / 2000 : ℚ)] ≠ []) ∧
    |(((3600000 : ℤ) : ℚ) - ((0 : ℤ) : ℚ)) / (1000 * 60 * 60) -
        ([1999 / 2000] : List ℚ).sum| ≤ 1 / 1000 ∧
    splitTimeWindow (some 0) (some 3600000) [1999 / 2000] =
      Except.ok [⟨0, 3598200⟩] ∧
    ((3598200 : ℤ) ≠ 3600000) := by
  refine ⟨by simp, ?_, ?_, by norm_num⟩
  · rw [show (((3600000 : ℤ) : ℚ) - ((0 : ℤ) : ℚ)) / (1000 * 60 * 60) -
        ([1999 / 2000] : List ℚ).sum = 1 / 2000 by norm_num]
    rw [abs_of_pos (by norm_num)]
    norm_num
  · norm_num [splitTimeWindow, buildSegments, addHours, ratTrunc,
      MILLISECONDS_IN_HOUR, abs_of_pos, abs_of_nonneg, abs_of_neg]

/-- C2 (amended): for a window `[s, e]` and a non-empty duration list
summing to the window length within `10⁻³` hours, `splitTimeWindow`
succeeds and returns one interval per duration, the first starting at `s`,
each subsequent interval starting exactly where the previous one ended (no
gaps, no overlaps); the last interval ends at the accumulated sum of the
durations (each added as milliseconds truncated toward zero), which equals
`e` exactly when the durations' total millisecond content equals the window
— not in general. -/
theorem splitter_correctness (s e : ℤ) (durations : List ℚ)
    (hne : durations ≠ [])
    (htol : |((e : ℚ) - (s : ℚ)) / (1000 * 60 * 60) - durations.sum| ≤
      1 / 1000) :
    splitTimeWindow (some s) (some e) durations =
      Except.ok (buildSegments s durations) ∧
    (buildSegments s durations).length = durations.length ∧
    (buildSegments s durations).head?.map Segment.start = some s ∧
    List.Chain' (fun a b => a.stop = b.start) (buildSegments s durations) ∧
    (buildSegments s durations).getLast?.map Segment.stop =
      some (durations.foldl addHours s) ∧
    ((∀ d ∈ durations, ∃ n : ℤ, d * 3600000 = (n : ℚ)) →
      durations.sum * 3600000 = ((e : ℚ) - (s : ℚ)) →
      (buildSegments s durations).getLast?.map Segment.stop = some e) := by
  refine ⟨?_, buildSegments_length durations s, ?_,
    buildSegments_chain durations s,
    buildSegments_getLast_stop durations s hne, ?_⟩
  · simp only [splitTimeWindow, List.isEmpty_eq_true]
    rw [if_neg hne, if_neg (not_lt.mpr htol)]
  · cases durations with
    | nil => exact absurd rfl hne
    | cons d rest => simp [buildSegments]
  · intro hwhole hsum
    rw [buildSegments_getLast_stop durations s hne]
    have hfold := foldl_addHours_exact durations s hwhole
    rw [hsum] at hfold
    have : ((durations.foldl addHours s : ℤ) : ℚ) = ((e : ℤ) : ℚ) := by
      rw [hfold]; ring
    rw [Int.cast_injective this]

theorem splitter_correctness_witness :
    (([1] : List ℚ) ≠ [] ∧
      |(((3600000 : ℤ) : ℚ) - ((0 : ℤ) : ℚ)) / (1000 * 60 * 60) -
          ([1] : List ℚ).sum| ≤ 1 / 1000) ∧
    (splitTimeWindow (some 0) (some 3600000) [1] =
        Except.ok (buildSegments 0 [1]) ∧
      (buildSegments 0 [1]).length = ([1] : List ℚ).length ∧
      (buildSegments 0 [1]).head?.map Segment.start = some 0 ∧
      List.Chain' (fun a b => a.stop = b.start) (buildSegments 0 [1]) ∧
      (buildSegments 0 [1]).getLast?.map Segment.stop =
        some (([1] : List ℚ).foldl addHours 0) ∧
      ((∀ d ∈ ([1] : List ℚ), ∃ n : ℤ, d * 3600000 = (n : ℚ)) →
        ([1] : List ℚ).sum * 3600000 = ((3600000 : ℤ) : ℚ) - ((0 : ℤ) : ℚ) →
        (buildSegments 0 [1]).getLast?.map Segment.stop = some 3600000)) :=
  ⟨⟨by simp, by norm_num⟩,
    splitter_correctness 0 3600000 [1] (by simp) (by norm_num)⟩

/-- C10: input guards of `splitTimeWindow` beyond the tolerance contract —
a non-`Date` start or end argument fails, an empty duration list fails
before the tolerance is even consulted (so also when the zero sum is within
`10⁻³` of the window length), and every non-empty duration list within
tolerance with valid `Date` endpoints succeeds. -/
theorem splitTimeWindow_guards :
    (∀ (e : Option ℤ) (d : List ℚ), splitTimeWindow none e d =
      Except.error "startDate and endDate must be Date objects") ∧
    (∀ (s : ℤ) (d : List ℚ), splitTimeWindow (some s) none d =
      Except.error "startDate and endDate must be Date objects") ∧
    (∀ s e : ℤ, splitTimeWindow (some s) (some e) [] =
      Except.error "durations must be a non-empty array") ∧
    (∀ (s e : ℤ) (d : List ℚ), d ≠ [] →
      |((e : ℚ) - (s : ℚ)) / (1000 * 60 * 60) - d.sum| ≤ 1 / 1000 →
      ∃ segs, splitTimeWindow (some s) (some e) d = Except.ok segs) := by
  refine ⟨?_, ?_, ?_, ?_⟩
  · intro e d
    cases e <;> rfl
  · intro s d
    rfl
  · intro s e
    simp [splitTimeWindow]
  · intro s e d hne htol
    refine ⟨buildSegments s d, ?_⟩
    simp only [splitTimeWindow, List.isEmpty_eq_true]
    rw [if_neg hne, if_neg (not_lt.mpr htol)]

theorem splitTimeWindow_guards_witness :
    (([(1 : ℚ)] : List ℚ) ≠ [] ∧
      |(((3600000 : ℤ) : ℚ) - ((0 : ℤ) : ℚ)) / (1000 * 60 * 60) -
          ([1] : List ℚ).sum| ≤ 1 / 1000) ∧
    (splitTimeWindow none (some 0) [1] =
        Except.error "startDate and endDate must be Date objects" ∧
      splitTimeWindow (some 0) (some 3600000) [] =
        Except.error "durations must be a non-empty array" ∧
      ∃ segs, splitTimeWindow (some 0) (some 3600000) [1] = Except.ok segs) :=
  ⟨⟨by simp, by norm_num⟩,
    splitTimeWindow_guards.1 (some 0) [1],
    splitTimeWindow_guards.2.2.1 0 3600000,
    splitTimeWindow_guards.2.2.2 0 3600000 [1] (by simp) (by norm_num)⟩

/-! ## Lemmas about resume detection and batching -/

theorem insertByKey_forall {q : WorkItem → Prop} (wi : WorkItem)
    (hwi : q wi) : ∀ (acc : List (String × List WorkItem)),
    (∀ p ∈ acc, ∀ x ∈ p.2, q x) →
    ∀ p ∈ insertByKey wi acc, ∀ x ∈ p.2, q x := by
  intro acc
  induction acc with
  | nil =>
    intro _ p hp x hx
    simp only [insertByKey, List.mem_singleton] at hp
    subst hp
    simp only [List.mem_singleton] at hx
    subst hx
    exact hwi
  | cons hd tl ih =>
    intro hacc p hp x hx
    obtain ⟨k, ws⟩ := hd
    simp only [insertByKey] at hp
    by_cases hk : k = batchKey wi
    · rw [if_pos hk] at hp
      rcases List.mem_cons.mp hp with rfl | hp2
      · rcases List.mem_append.mp hx with hx1 | hx2
        · exact hacc (k, ws) (by simp) x hx1
        · rw [List.mem_singleton.mp hx2]
          exact hwi
      · exact hacc p (by simp [hp2]) x hx
    · rw [if_neg hk] at hp
      rcases List.mem_cons.mp hp with rfl | hp2
      · exact hacc (k, ws) (by simp) x hx
      · exact ih (fun r hr => hacc r (by simp [hr])) p hp2 x hx

theorem byKeyMap_forall (processed : List String) (workItems : List WorkItem) :
    ∀ p ∈ byKeyMap processed workItems, ∀ x ∈ p.2,
      ¬ processed.contains x.workItemKey := by
  have main : ∀ (items : List WorkItem) (acc : List (String × List WorkItem)),
      (∀ p ∈ acc, ∀ x ∈ p.2, ¬ processed.contains x.workItemKey) →
      ∀ p ∈ items.foldl
        (fun a wi =>
          if processed.contains wi.workItemKey then a else insertByKey wi a)
        acc, ∀ x ∈ p.2, ¬ processed.contains x.workItemKey := by
    intro items
    induction items with
    | nil => intro acc hacc; exact hacc
    | cons wi rest ih =>
      intro acc hacc
      simp only [List.foldl_cons]
      by_cases hw : processed.contains wi.workItemKey
      · rw [if_pos hw]
        exact ih acc hacc
      · rw [if_neg hw]
        exact ih (insertByKey wi acc) (insertByKey_forall wi hw acc hacc)
  exact main workItems [] (by simp)

theorem chunksOf_subset (l : List WorkItem) :
    ∀ b ∈ chunksOf l, ∀ x ∈ b, x ∈ l := by
  have main : ∀ (n : ℕ) (l : List WorkItem), l.length ≤ n →
      ∀ b ∈ chunksOf l, ∀ x ∈ b, x ∈ l := by
    intro n
    induction n with
    | zero =>
      intro l hl b hb x hx
      have hnil : l = [] := List.eq_nil_of_length_eq_zero (Nat.le_zero.mp hl)
      subst hnil
      unfold chunksOf at hb
      simp at hb
    | succ n ih =>
      intro l hl b hb x hx
      unfold chunksOf at hb
      by_cases hnil : l = []
      · rw [if_pos hnil] at hb
        simp at hb
      · rw [if_neg hnil] at hb
        rcases List.mem_cons.mp hb with rfl | hb2
        · exact List.mem_of_mem_take hx
        · have hlen : (l.drop MAX_BATCH_SIZE).length ≤ n := by
            simp only [List.length_drop, MAX_BATCH_SIZE]
            have hpos : 0 < l.length := List.length_pos.mpr hnil
            omega
          exact List.mem_of_mem_drop (ih _ hlen b hb2 x hx)
  exact main l.length l le_rfl

theorem buildBatches_forall {q : WorkItem → Prop}
    (groupsList : List (String × List WorkItem))
    (hg : ∀ p ∈ groupsList, ∀ x ∈ p.2, q x) :
    ∀ b ∈ buildBatches groupsList, ∀ x ∈ b, q x := by
  have main : ∀ (gs : List (String × List WorkItem))
      (acc : List (List WorkItem)),
      (∀ p ∈ gs, ∀ x ∈ p.2, q x) →
      (∀ b ∈ acc, ∀ x ∈ b, q x) →
      ∀ b ∈ gs.foldl
        (fun batches p =>
          if p.2.length ≤ MAX_BATCH_SIZE then batches ++ [p.2]
          else batches ++ chunksOf p.2)
        acc, ∀ x ∈ b, q x := by
    intro gs
    induction gs with
    | nil => intro acc _ hacc; exact hacc
    | cons p0 rest ih =>
      intro acc hgs hacc
      simp only [List.foldl_cons]
      have hp0 : ∀ x ∈ p0.2, q x := hgs p0 (by simp)
      have hrest : ∀ p ∈ rest, ∀ x ∈ p.2, q x :=
        fun p hp => hgs p (by simp [hp])
      by_cases hlen : p0.2.length ≤ MAX_BATCH_SIZE
      · rw [if_pos hlen]
        refine ih _ hrest ?_
        intro b hb x hx
        rcases List.mem_append.mp hb with hb1 | hb2
        · exact hacc b hb1 x hx
        · rw [List.mem_singleton.mp hb2] at hx
          exact hp0 x hx
      · rw [if_neg hlen]
        refine ih _ hrest ?_
        intro b hb x hx
        rcases List.mem_append.mp hb with hb1 | hb2
        · exact hacc b hb1 x hx
        · exact hp0 x (chunksOf_subset p0.2 b hb2 x hx)
  exact main groupsList [] hg (by simp)

/-- C5: Resume exclusion.  Every key recorded in a loaded progress record
is in the processed set; a legacy record carrying only an entry index `n`
contributes the synthesized key `"n:0"`; and no work item whose key is in
the processed set appears in any batch of the run — it is never sent for
enrichment again. -/
theorem resume_exclusion (progressItems : List LedgerRecord)
    (workItems : List WorkItem) :
    (∀ r ∈ progressItems, ∀ k, r.workItemKey = some k →
      k ∈ processedKeys progressItems) ∧
    (∀ r ∈ progressItems, ∀ n, r.rowIndex = some n → r.workItemKey = none →
      (toString n ++ ":0") ∈ processedKeys progressItems) ∧
    (∀ b ∈ batchesForRun progressItems workItems, ∀ wi ∈ b,
      wi.workItemKey ∉ processedKeys progressItems) := by
  refine ⟨?_, ?_, ?_⟩
  · intro r hr k hk
    apply List.mem_append_left
    exact List.mem_filterMap.mpr ⟨r, hr, hk⟩
  · intro r hr n hn hk
    apply List.mem_append_right
    apply List.mem_filterMap.mpr
    refine ⟨r, hr, ?_⟩
    rw [hn, hk]
    simp
  · intro b hb wi hwi
    have hmem := buildBatches_forall
      (byKeyMap (processedKeys progressItems) workItems)
      (byKeyMap_forall (processedKeys progressItems) workItems) b hb wi hwi
    intro hcontra
    exact hmem (List.elem_eq_true_of_mem hcontra)

theorem resume_exclusion_witness :
    ("1:0" ∈ processedKeys [⟨some "1:0", none⟩, ⟨none, some 2⟩]) ∧
    ((toString (2 : ℤ) ++ ":0") ∈
      processedKeys [⟨some "1:0", none⟩, ⟨none, some 2⟩]) ∧
    (∀ b ∈ batchesForRun [⟨some "1:0", none⟩, ⟨none, some 2⟩]
        [⟨"1:0", none, none⟩, ⟨"2:0", none, none⟩, ⟨"3:0", some "SD-1", none⟩],
      ∀ wi ∈ b, wi.workItemKey ∉
        processedKeys [⟨some "1:0", none⟩, ⟨none, some 2⟩]) :=
  ⟨(resume_exclusion [⟨some "1:0", none⟩, ⟨none, some 2⟩]
      [⟨"1:0", none, none⟩, ⟨"2:0", none, none⟩, ⟨"3:0", some "SD-1", none⟩]).1
      ⟨some "1:0", none⟩ (by simp) "1:0" rfl,
    (resume_exclusion [⟨some "1:0", none⟩, ⟨none, some 2⟩]
      [⟨"1:0", none, none⟩, ⟨"2:0", none, none⟩, ⟨"3:0", some "SD-1", none⟩]).2.1
      ⟨none, some 2⟩ (by simp) 2 rfl rfl,
    (resume_exclusion [⟨some "1:0", none⟩, ⟨none, some 2⟩]
      [⟨"1:0", none, none⟩, ⟨"2:0", none, none⟩, ⟨"3:0", some "SD-1", none⟩]).2.2⟩

/-- C6: Error propagation dichotomy.  A failed or malformed semantic-match
response leaves the exact-only match results untouched; a failed or
malformed decomposition response leaves every member of the group a single
work item carrying its own parsed duration; but a failed or unparseable
batch-enrichment response aborts the run at that batch — the records of the
earlier batches are exactly what the run has appended, nothing after the
failing batch runs — while a run whose batches all succeed completes. -/
theorem error_propagation_dichotomy :
    (∀ (githubData : List GithubItem) (jiraData : List JiraItem)
        (ms : List MatchResult),
      semanticMatchingPhase none githubData jiraData ms = ms) ∧
    (∀ (totalHours : ℚ) (needs : List ℚ),
      (decomposeGroup none totalHours needs).length = needs.length ∧
      ∀ p ∈ needs.zip (decomposeGroup none totalHours needs),
        entryWorkItemDurations p.1 p.2 = [p.1]) ∧
    (∀ (respond : List EnrichTarget → Option (List EnrichResponseItem))
        (pre : List (List EnrichTarget)) (batch : List EnrichTarget)
        (post : List (List EnrichTarget)),
      (∀ b ∈ pre, (respond b).isSome) → respond batch = none →
      runEnrichmentLoop respond (pre ++ batch :: post) =
        ((pre.map (fun b => batchRecords b ((respond b).getD []))).flatten,
          false)) ∧
    (∀ (respond : List EnrichTarget → Option (List EnrichResponseItem))
        (batches : List (List EnrichTarget)),
      (∀ b ∈ batches, (respond b).isSome) →
      (runEnrichmentLoop respond batches).2 = true) := by
  refine ⟨fun _ _ _ => rfl, ?_, ?_, ?_⟩
  · intro totalHours needs
    constructor
    · simp [decomposeGroup]
    · intro p hp
      have h2 := (List.of_mem_zip hp).2
      simp only [decomposeGroup, List.mem_map] at h2
      obtain ⟨x, _, hpe⟩ := h2
      rw [← hpe]
      simp [entryWorkItemDurations]
  · intro respond pre batch post hpre hbatch
    induction pre with
    | nil =>
      simp only [List.nil_append, runEnrichmentLoop, hbatch, List.map_nil,
        List.flatten_nil]
    | cons b rest ih =>
      obtain ⟨rs, hrs⟩ := Option.isSome_iff_exists.mp (hpre b (by simp))
      have ihr := ih (fun x hx => hpre x (by simp [hx]))
      simp only [List.cons_append, runEnrichmentLoop, hrs, List.map_cons,
        List.flatten_cons, List.append_eq]
      rw [ihr]
      simp
  · intro respond batches hall
    induction batches with
    | nil => rfl
    | cons b rest ih =>
      obtain ⟨rs, hrs⟩ := Option.isSome_iff_exists.mp (hall b (by simp))
      simp only [runEnrichmentLoop, hrs]
      exact ih (fun x hx => hall x (by simp [hx]))

/-- A response function for exercising the enrichment loop: fails exactly
on an empty batch. -/
def testRespond : List EnrichTarget → Option (List EnrichResponseItem) :=
  fun l => if l.isEmpty then none else some []

theorem error_propagation_dichotomy_witness :
    ((∀ b ∈ [[(⟨"0:0", 0, 0, "d"⟩ : EnrichTarget)]], (testRespond b).isSome) ∧
      testRespond [] = none) ∧
    runEnrichmentLoop testRespond
        ([[(⟨"0:0", 0, 0, "d"⟩ : EnrichTarget)]] ++
          [] :: [[⟨"1:0", 1, 0, "e"⟩]]) =
      (([[(⟨"0:0", 0, 0, "d"⟩ : EnrichTarget)]].map
          (fun b => batchRecords b ((testRespond b).getD []))).flatten,
        false) :=
  ⟨⟨by
      intro b hb
      simp only [List.mem_singleton] at hb
      subst hb
      rfl, rfl⟩,
    error_propagation_dichotomy.2.2.1 testRespond
      [[⟨"0:0", 0, 0, "d"⟩]] [] [[⟨"1:0", 1, 0, "e"⟩]]
      (by
        intro b hb
        simp only [List.mem_singleton] at hb
        subst hb
        rfl)
      rfl⟩

/-- C7: Matching precedence and ordering.  For an entry with extracted
ticket ids, the evidence list built by Section 11 is the near matches
(exact matches passing the ±1-day window) followed by the remaining exact
matches not already listed; it contains no evidence item twice, contains
exactly the exact matches, both segments preserve evidence order, and any
within-window exact match ranks strictly before any out-of-window exact
match. -/
theorem matching_precedence (tids : List String) (clockifyDate : Option ℤ)
    (githubData : List GithubItem) (htids : tids ≠ [])
    (hnd : githubData.Nodup) :
    githubMatchesFor tids clockifyDate githubData =
      (githubData.filter (isExactMatch tids)).filter
          (isNearMatch clockifyDate) ++
        (githubData.filter (isExactMatch tids)).filter
          (fun x => ¬ ((githubData.filter (isExactMatch tids)).filter
            (isNearMatch clockifyDate)).contains x) ∧
    (githubMatchesFor tids clockifyDate githubData).Nodup ∧
    (∀ x ∈ githubData, (isExactMatch tids x ↔
      x ∈ githubMatchesFor tids clockifyDate githubData)) ∧
    ((githubData.filter (isExactMatch tids)).filter
      (isNearMatch clockifyDate)).Sublist githubData ∧
    ((githubData.filter (isExactMatch tids)).filter
      (fun x => ¬ ((githubData.filter (isExactMatch tids)).filter
        (isNearMatch clockifyDate)).contains x)).Sublist githubData ∧
    (∀ x y : GithubItem, x ∈ githubData → y ∈ githubData →
      isExactMatch tids x → isExactMatch tids y →
      isNearMatch clockifyDate x → ¬ isNearMatch clockifyDate y →
      (githubMatchesFor tids clockifyDate githubData).indexOf x <
        (githubMatchesFor tids clockifyDate githubData).indexOf y) := by
  have hout : githubMatchesFor tids clockifyDate githubData =
      (githubData.filter (isExactMatch tids)).filter
          (isNearMatch clockifyDate) ++
        (githubData.filter (isExactMatch tids)).filter
          (fun x => ¬ ((githubData.filter (isExactMatch tids)).filter
            (isNearMatch clockifyDate)).contains x) := by
    simp only [githubMatchesFor, if_pos htids]
  have hexact : (githubData.filter (isExactMatch tids)).Nodup :=
    hnd.filter _
  have hnear : ((githubData.filter (isExactMatch tids)).filter
      (isNearMatch clockifyDate)).Nodup := hexact.filter _
  have hrest : ((githubData.filter (isExactMatch tids)).filter
      (fun x => ¬ ((githubData.filter (isExactMatch tids)).filter
        (isNearMatch clockifyDate)).contains x)).Nodup := hexact.filter _
  have hdisj : ∀ x, x ∈ (githubData.filter (isExactMatch tids)).filter
      (isNearMatch clockifyDate) →
      x ∉ (githubData.filter (isExactMatch tids)).filter
        (fun x => ¬ ((githubData.filter (isExactMatch tids)).filter
          (isNearMatch clockifyDate)).contains x) := by
    intro x hx hx2
    have := (List.mem_filter.mp hx2).2
    simp only [decide_not, Bool.not_eq_true', decide_eq_false_iff_not] at this
    exact this (List.elem_eq_true_of_mem hx)
  refine ⟨hout, ?_, ?_, ?_, ?_, ?_⟩
  · rw [hout]
    exact List.Nodup.append hnear hrest hdisj
  · intro x hx
    rw [hout]
    constructor
    · intro hex
      by_cases hnearx : isNearMatch clockifyDate x
      · exact List.mem_append_left _
          (List.mem_filter.mpr ⟨List.mem_filter.mpr ⟨hx, hex⟩, hnearx⟩)
      · apply List.mem_append_right
        apply List.mem_filter.mpr
        refine ⟨List.mem_filter.mpr ⟨hx, hex⟩, ?_⟩
        simp only [decide_not, Bool.not_eq_true', decide_eq_false_iff_not]
        intro hcon
        exact hnearx (List.mem_filter.mp (List.mem_of_elem_eq_true hcon)).2
    · intro hmem
      rcases List.mem_append.mp hmem with hm | hm
      · exact (List.mem_filter.mp (List.mem_filter.mp hm).1).2
      · exact (List.mem_filter.mp (List.mem_filter.mp hm).1).2
  · exact (List.filter_sublist _).trans (List.filter_sublist _)
  · exact (List.filter_sublist _).trans (List.filter_sublist _)
  · intro x y hxd hyd hxe hye hxn hyn
    have hxnear : x ∈ (githubData.filter (isExactMatch tids)).filter
        (isNearMatch clockifyDate) :=
      List.mem_filter.mpr ⟨List.mem_filter.mpr ⟨hxd, hxe⟩, hxn⟩
    have hynear : y ∉ (githubData.filter (isExactMatch tids)).filter
        (isNearMatch clockifyDate) := by
      intro hc
      exact hyn (List.mem_filter.mp hc).2
    rw [hout, List.indexOf_append_of_mem hxnear,
      List.indexOf_append_of_not_mem hynear]
    calc List.indexOf x ((githubData.filter (isExactMatch tids)).filter
          (isNearMatch clockifyDate)) <
        ((githubData.filter (isExactMatch tids)).filter
          (isNearMatch clockifyDate)).length :=
          List.indexOf_lt_length.mpr hxnear
      _ ≤ _ := Nat.le_add_right _ _

theorem isNearMatch_some (cd : ℤ) (g : GithubItem) (gd : ℤ)
    (h : githubItemDate g = some gd) :
    isNearMatch (some cd) g = isWithinDayWindow cd gd 1 := by
  unfold isNearMatch
  rw [h]

theorem isWithinDayWindow_eq_decide (d t : ℤ) (w : ℕ) :
    isWithinDayWindow d t w = decide (|differenceInDays d t| ≤ (w : ℤ)) := rfl

theorem matching_precedence_witness :
    ((["SD-1"] : List String) ≠ []) ∧
    ([(⟨2, "pr", some 2, ["SD-1"], some 864000000, none⟩ : GithubItem),
      ⟨1, "pr", some 1, ["SD-1"], some 0, none⟩] : List GithubItem).Nodup ∧
    (githubMatchesFor ["SD-1"] (some 0)
        [⟨2, "pr", some 2, ["SD-1"], some 864000000, none⟩,
          ⟨1, "pr", some 1, ["SD-1"], some 0, none⟩]).indexOf
        ⟨1, "pr", some 1, ["SD-1"], some 0, none⟩ <
      (githubMatchesFor ["SD-1"] (some 0)
        [⟨2, "pr", some 2, ["SD-1"], some 864000000, none⟩,
          ⟨1, "pr", some 1, ["SD-1"], some 0, none⟩]).indexOf
        ⟨2, "pr", some 2, ["SD-1"], some 864000000, none⟩ := by
  have hnd : ([(⟨2, "pr", some 2, ["SD-1"], some 864000000, none⟩ : GithubItem),
      ⟨1, "pr", some 1, ["SD-1"], some 0, none⟩] : List GithubItem).Nodup := by
    norm_num [List.nodup_cons]
  refine ⟨by simp, hnd, ?_⟩
  refine (matching_precedence ["SD-1"] (some 0)
      [⟨2, "pr", some 2, ["SD-1"], some 864000000, none⟩,
        ⟨1, "pr", some 1, ["SD-1"], some 0, none⟩]
      (by simp) hnd).2.2.2.2.2
    ⟨1, "pr", some 1, ["SD-1"], some 0, none⟩
    ⟨2, "pr", some 2, ["SD-1"], some 864000000, none⟩
    (by simp) (by simp) (by simp [isExactMatch]) (by simp [isExactMatch])
    ?_ ?_
  · have hd : differenceInDays 0 0 = 0 := by
      rw [differenceInDays,
        show ((0 - 0 : ℤ) : ℚ) / 86400000 = (0 : ℚ) by norm_num]
      rw [ratTrunc, if_pos (le_refl (0 : ℚ))]
      exact Int.floor_zero
    rw [isNearMatch_some 0 ⟨1, "pr", some 1, ["SD-1"], some 0, none⟩ 0 rfl,
      isWithinDayWindow_eq_decide, hd]
    rfl
  · have hd : differenceInDays 0 864000000 = -10 := by
      rw [differenceInDays,
        show ((0 - 864000000 : ℤ) : ℚ) / 86400000 = (-10 : ℚ) by norm_num]
      rw [ratTrunc, if_neg (by norm_num : ¬ (0 : ℚ) ≤ -10)]
      rw [show (-10 : ℚ) = ((-10 : ℤ) : ℚ) by norm_num]
      exact Int.ceil_intCast (-10)
    rw [isNearMatch_some 0
        ⟨2, "pr", some 2, ["SD-1"], some 864000000, none⟩ 864000000 rfl,
      isWithinDayWindow_eq_decide, hd]
    decide

/-- The bucket the Section 16 `byKey` map holds for a key — `byKey.get(k)`,
with `[]` for an absent key. -/
def findBucket (k : String) : List (String × List WorkItem) → List WorkItem
  | [] => []
  | (k2, ws) :: rest => if k2 = k then ws else findBucket k rest

/-- The batches Section 16 emits for one key's bucket: the bucket whole
when it fits in `MAX_BATCH_SIZE`, else its consecutive chunks. -/
def perKeyBatches (arr : List WorkItem) : List (List WorkItem) :=
  if arr.length ≤ MAX_BATCH_SIZE then [arr] else chunksOf arr

theorem buildBatches_eq_flatMap (groupsList : List (String × List WorkItem)) :
    buildBatches groupsList = groupsList.flatMap (fun p => perKeyBatches p.2) := by
  have main : ∀ (gs : List (String × List WorkItem))
      (acc : List (List WorkItem)),
      gs.foldl
        (fun batches p =>
          if p.2.length ≤ MAX_BATCH_SIZE then batches ++ [p.2]
          else batches ++ chunksOf p.2)
        acc = acc ++ gs.flatMap (fun p => perKeyBatches p.2) := by
    intro gs
    induction gs with
    | nil => intro acc; simp
    | cons p rest ih =>
      intro acc
      simp only [List.foldl_cons, List.flatMap_cons]
      rw [ih]
      by_cases hlen : p.2.length ≤ MAX_BATCH_SIZE
      · rw [if_pos hlen, perKeyBatches, if_pos hlen, List.append_assoc]
      · rw [if_neg hlen, perKeyBatches, if_neg hlen, List.append_assoc]
  exact main groupsList []

theorem findBucket_insert_same (wi : WorkItem) :
    ∀ acc : List (String × List WorkItem),
    findBucket (batchKey wi) (insertByKey wi acc) =
      findBucket (batchKey wi) acc ++ [wi]
  | [] => by simp [insertByKey, findBucket]
  | (k2, ws) :: rest => by
    by_cases hk : k2 = batchKey wi
    · subst hk
      simp [insertByKey, findBucket]
    · simp only [insertByKey, if_neg hk, findBucket]
      exact findBucket_insert_same wi rest

theorem findBucket_insert_other (wi : WorkItem) (k : String)
    (h : k ≠ batchKey wi) :
    ∀ acc : List (String × List WorkItem),
    findBucket k (insertByKey wi acc) = findBucket k acc
  | [] => by
    simp only [insertByKey, findBucket]
    rw [if_neg (fun hc => h hc.symm)]
  | (k2, ws) :: rest => by
    by_cases hk : k2 = batchKey wi
    · subst hk
      simp only [insertByKey, if_pos rfl, findBucket]
      rw [if_neg (fun hc => h hc.symm), if_neg (fun hc => h hc.symm)]
    · simp only [insertByKey, if_neg hk, findBucket]
      by_cases hk2 : k2 = k
      · rw [if_pos hk2, if_pos hk2]
      · rw [if_neg hk2, if_neg hk2]
        exact findBucket_insert_other wi k h rest

theorem byKeyMap_findBucket (processed : List String)
    (workItems : List WorkItem) (k : String) :
    findBucket k (byKeyMap processed workItems) =
      (workItems.filter
        (fun wi => !(processed.contains wi.workItemKey))).filter
        (fun wi => batchKey wi == k) := by
  have main : ∀ (items : List WorkItem) (acc : List (String × List WorkItem)),
      findBucket k (items.foldl
        (fun a wi =>
          if processed.contains wi.workItemKey then a else insertByKey wi a)
        acc) =
      findBucket k acc ++
        ((items.filter (fun wi => !(processed.contains wi.workItemKey))).filter
          (fun wi => batchKey wi == k)) := by
    intro items
    induction items with
    | nil => intro acc; simp
    | cons wi rest ih =>
      intro acc
      simp only [List.foldl_cons, List.filter_cons]
      by_cases hp : processed.contains wi.workItemKey
      · rw [if_pos hp]
        simp only [hp, Bool.not_true, Bool.false_eq_true, if_false]
        exact ih acc
      · rw [if_neg hp]
        simp only [Bool.not_eq_true', Bool.not_eq_false] at hp
        simp only [hp, Bool.not_false, if_true]
        by_cases hk : batchKey wi = k
        · subst hk
          simp only [List.filter_cons, beq_self_eq_true, if_true]
          rw [ih (insertByKey wi acc), findBucket_insert_same wi acc]
          simp
        · have hbeq : (batchKey wi == k) = false := beq_eq_false_iff_ne.mpr hk
          simp only [List.filter_cons, hbeq, Bool.false_eq_true, if_false]
          rw [ih (insertByKey wi acc),
            findBucket_insert_other wi k (fun hc => hk hc.symm) acc]
  unfold byKeyMap
  rw [main workItems []]
  rfl

theorem findBucket_mem (k : String) :
    ∀ acc : List (String × List WorkItem), findBucket k acc ≠ [] →
    (k, findBucket k acc) ∈ acc
  | [] => by simp [findBucket]
  | (k2, ws) :: rest => by
    intro hne
    simp only [findBucket] at hne ⊢
    by_cases hk : k2 = k
    · subst hk
      rw [if_pos rfl] at hne ⊢
      simp
    · rw [if_neg hk] at hne ⊢
      exact List.mem_cons_of_mem _ (findBucket_mem k rest hne)

theorem chunksOf_flatten (l : List WorkItem) : (chunksOf l).flatten = l := by
  have main : ∀ (n : ℕ) (l : List WorkItem), l.length ≤ n →
      (chunksOf l).flatten = l := by
    intro n
    induction n with
    | zero =>
      intro l hl
      have hnil : l = [] := List.eq_nil_of_length_eq_zero (Nat.le_zero.mp hl)
      subst hnil
      unfold chunksOf
      rw [if_pos rfl]
      rfl
    | succ n ih =>
      intro l hl
      unfold chunksOf
      by_cases hnil : l = []
      · rw [if_pos hnil]
        rw [hnil]
        rfl
      · rw [if_neg hnil]
        rw [List.flatten_cons]
        have hlen : (l.drop MAX_BATCH_SIZE).length ≤ n := by
          simp only [List.length_drop, MAX_BATCH_SIZE]
          have hpos : 0 < l.length := List.length_pos.mpr hnil
          omega
        rw [ih (l.drop MAX_BATCH_SIZE) hlen]
        exact List.take_append_drop _ l
  exact main l.length l le_rfl

theorem chunksOf_count (l : List WorkItem) :
    (chunksOf l).length = (l.length + MAX_BATCH_SIZE - 1) / MAX_BATCH_SIZE := by
  have main : ∀ (n : ℕ) (l : List WorkItem), l.length ≤ n →
      (chunksOf l).length =
        (l.length + MAX_BATCH_SIZE - 1) / MAX_BATCH_SIZE := by
    intro n
    induction n with
    | zero =>
      intro l hl
      have hnil : l = [] := List.eq_nil_of_length_eq_zero (Nat.le_zero.mp hl)
      subst hnil
      simp [chunksOf, MAX_BATCH_SIZE]
    | succ n ih =>
      intro l hl
      unfold chunksOf
      by_cases hnil : l = []
      · rw [if_pos hnil, hnil]
        simp [MAX_BATCH_SIZE]
      · rw [if_neg hnil]
        have hpos : 0 < l.length := List.length_pos.mpr hnil
        have hlen : (l.drop MAX_BATCH_SIZE).length ≤ n := by
          simp only [List.length_drop, MAX_BATCH_SIZE]
          omega
        rw [List.length_cons, ih (l.drop MAX_BATCH_SIZE) hlen]
        simp only [List.length_drop, MAX_BATCH_SIZE]
        omega
  exact main l.length l le_rfl

theorem chunksOf_sizes (l : List WorkItem) :
    ∀ b ∈ chunksOf l, b.length ≤ MAX_BATCH_SIZE ∧ b ≠ [] := by
  have main : ∀ (n : ℕ) (l : List WorkItem), l.length ≤ n →
      ∀ b ∈ chunksOf l, b.length ≤ MAX_BATCH_SIZE ∧ b ≠ [] := by
    intro n
    induction n with
    | zero =>
      intro l hl b hb
      have hnil : l = [] := List.eq_nil_of_length_eq_zero (Nat.le_zero.mp hl)
      subst hnil
      unfold chunksOf at hb
      simp at hb
    | succ n ih =>
      intro l hl b hb
      unfold chunksOf at hb
      by_cases hnil : l = []
      · rw [if_pos hnil] at hb
        simp at hb
      · rw [if_neg hnil] at hb
        rcases List.mem_cons.mp hb with rfl | hb2
        · constructor
          · exact List.length_take_le MAX_BATCH_SIZE l
          · have hpos : 0 < l.length := List.length_pos.mpr hnil
            intro hc
            have := congrArg List.length hc
            simp only [List.length_take, List.length_nil, MAX_BATCH_SIZE] at this
            omega
        · have hlen : (l.drop MAX_BATCH_SIZE).length ≤ n := by
            simp only [List.length_drop, MAX_BATCH_SIZE]
            have hpos : 0 < l.length := List.length_pos.mpr hnil
            omega
          exact ih (l.drop MAX_BATCH_SIZE) hlen b hb2
  exact main l.length l le_rfl

theorem perKeyBatches_spec (arr : List WorkItem) (hne : arr ≠ []) :
    (perKeyBatches arr).length =
      (arr.length + MAX_BATCH_SIZE - 1) / MAX_BATCH_SIZE ∧
    (∀ b ∈ perKeyBatches arr, b.length ≤ MAX_BATCH_SIZE ∧ b ≠ []) ∧
    (perKeyBatches arr).flatten = arr := by
  unfold perKeyBatches
  by_cases hlen : arr.length ≤ MAX_BATCH_SIZE
  · rw [if_pos hlen]
    have hpos : 0 < arr.length := List.length_pos.mpr hne
    refine ⟨?_, ?_, by simp⟩
    · simp only [List.length_singleton, MAX_BATCH_SIZE] at *
      omega
    · intro b hb
      rw [List.mem_singleton.mp hb]
      exact ⟨hlen, hne⟩
  · rw [if_neg hlen]
    exact ⟨chunksOf_count arr, chunksOf_sizes arr, chunksOf_flatten arr⟩

/-- C9: Batch bound.  The run's batches are the per-key batches of the
`byKey` map in key order; for any key `k` the map's bucket is exactly the
pending work items (not yet in the ledger) whose batching key is `k`, in
original order; and whenever that set is non-empty it appears as one bucket
whose batches number exactly `⌈N / MAX_BATCH_SIZE⌉`, each non-empty and of
size at most `MAX_BATCH_SIZE`, concatenating back to the original order. -/
theorem batch_bound (progressItems : List LedgerRecord)
    (workItems : List WorkItem) (k : String) :
    batchesForRun progressItems workItems =
      (byKeyMap (processedKeys progressItems) workItems).flatMap
        (fun p => perKeyBatches p.2) ∧
    findBucket k (byKeyMap (processedKeys progressItems) workItems) =
      (workItems.filter
        (fun wi => !((processedKeys progressItems).contains wi.workItemKey))).filter
        (fun wi => batchKey wi == k) ∧
    ((workItems.filter
        (fun wi => !((processedKeys progressItems).contains wi.workItemKey))).filter
        (fun wi => batchKey wi == k) ≠ [] →
      (k, (workItems.filter
          (fun wi => !((processedKeys progressItems).contains wi.workItemKey))).filter
          (fun wi => batchKey wi == k)) ∈
        byKeyMap (processedKeys progressItems) workItems ∧
      (perKeyBatches ((workItems.filter
          (fun wi => !((processedKeys progressItems).contains wi.workItemKey))).filter
          (fun wi => batchKey wi == k))).length =
        (((workItems.filter
          (fun wi => !((processedKeys progressItems).contains wi.workItemKey))).filter
          (fun wi => batchKey wi == k)).length + MAX_BATCH_SIZE - 1) /
          MAX_BATCH_SIZE ∧
      (∀ b ∈ perKeyBatches ((workItems.filter
          (fun wi => !((processedKeys progressItems).contains wi.workItemKey))).filter
          (fun wi => batchKey wi == k)),
        b.length ≤ MAX_BATCH_SIZE ∧ b ≠ []) ∧
      (perKeyBatches ((workItems.filter
          (fun wi => !((processedKeys progressItems).contains wi.workItemKey))).filter
          (fun wi => batchKey wi == k))).flatten =
        (workItems.filter
          (fun wi => !((processedKeys progressItems).contains wi.workItemKey))).filter
          (fun wi => batchKey wi == k)) := by
  have hbucket := byKeyMap_findBucket (processedKeys progressItems) workItems k
  refine ⟨buildBatches_eq_flatMap _, hbucket, ?_⟩
  intro hne
  obtain ⟨hcount, hsizes, hflat⟩ := perKeyBatches_spec _ hne
  refine ⟨?_, hcount, hsizes, hflat⟩
  rw [← hbucket]
  rw [← hbucket] at hne
  exact findBucket_mem k _ hne

theorem batch_bound_witness :
    ((([(⟨"0:0", some "SD-1", none⟩ : WorkItem), ⟨"1:0", some "SD-1", none⟩] :
        List WorkItem).filter
        (fun wi => !((processedKeys []).contains wi.workItemKey))).filter
        (fun wi => batchKey wi == "SD-1") ≠ []) ∧
    (("SD-1",
        [(⟨"0:0", some "SD-1", none⟩ : WorkItem), ⟨"1:0", some "SD-1", none⟩]) ∈
        byKeyMap (processedKeys [])
          [⟨"0:0", some "SD-1", none⟩, ⟨"1:0", some "SD-1", none⟩] ∧
      (perKeyBatches
        [(⟨"0:0", some "SD-1", none⟩ : WorkItem), ⟨"1:0", some "SD-1", none⟩]).length =
        (([(⟨"0:0", some "SD-1", none⟩ : WorkItem),
          ⟨"1:0", some "SD-1", none⟩] : List WorkItem).length +
          MAX_BATCH_SIZE - 1) / MAX_BATCH_SIZE ∧
      (∀ b ∈ perKeyBatches
          [(⟨"0:0", some "SD-1", none⟩ : WorkItem), ⟨"1:0", some "SD-1", none⟩],
        b.length ≤ MAX_BATCH_SIZE ∧ b ≠ []) ∧
      (perKeyBatches
        [(⟨"0:0", some "SD-1", none⟩ : WorkItem),
          ⟨"1:0", some "SD-1", none⟩]).flatten =
        [(⟨"0:0", some "SD-1", none⟩ : WorkItem), ⟨"1:0", some "SD-1", none⟩]) :=
  ⟨by decide,
    (batch_bound []
      [⟨"0:0", some "SD-1", none⟩, ⟨"1:0", some "SD-1", none⟩] "SD-1").2.2
      (by decide)⟩

theorem decomposition_reconciliation_witness :
    (([(⟨"a", 2 / 5⟩ : SubTask), ⟨"b", 2 / 5⟩] : List SubTask) ≠ []) ∧
    ((1 / 1000 < |subTaskSum [(⟨"a", 2 / 5⟩ : SubTask), ⟨"b", 2 / 5⟩] - 1| →
      ∃ t, ([(⟨"a", 2 / 5⟩ : SubTask), ⟨"b", 2 / 5⟩] :
          List SubTask).getLast? = some t ∧
        reconcileSubTaskHours 1 [⟨"a", 2 / 5⟩, ⟨"b", 2 / 5⟩] =
          ([(⟨"a", 2 / 5⟩ : SubTask), ⟨"b", 2 / 5⟩] :
            List SubTask).dropLast ++
            [{ t with hours := toFixed6 (t.hours +
              toFixed6 (1 - subTaskSum
                [(⟨"a", 2 / 5⟩ : SubTask), ⟨"b", 2 / 5⟩])) }] ∧
        |subTaskSum (reconcileSubTaskHours 1 [⟨"a", 2 / 5⟩, ⟨"b", 2 / 5⟩]) -
          1| ≤ 1 / 1000000) ∧
     (|subTaskSum [(⟨"a", 2 / 5⟩ : SubTask), ⟨"b", 2 / 5⟩] - 1| ≤ 1 / 1000 →
        reconcileSubTaskHours 1 [⟨"a", 2 / 5⟩, ⟨"b", 2 / 5⟩] =
          [⟨"a", 2 / 5⟩, ⟨"b", 2 / 5⟩])) :=
  ⟨by simp,
    decomposition_reconciliation 1 [⟨"a", 2 / 5⟩, ⟨"b", 2 / 5⟩] (by simp)⟩
